import Mathlib

/-!
Shallow embedding of the per-asset walk-forward training/prediction pipeline
of `strategyCatherineHerrera.ipynb`.

A time series is a list indexed by time (index 0 is the earliest step);
a missing value (NaN) is `none`.  All numeric values are modelled as exact
rationals.  The natural logarithm applied to the price channel is a pointwise
numeric function on floats; it is modelled as an explicit parameter
`lg : ℚ → ℚ` of the feature extractor.
-/

abbrev Series := List (Option ℚ)

/-- All-or-nothing sequencing: `some` of the list of values when every entry
is present, `none` as soon as one entry is missing. -/
def seqOpt : List (Option ℚ) → Option (List ℚ)
  | [] => some []
  | none :: _ => none
  | some v :: r => (seqOpt r).map (fun vs => v :: vs)

/-- Elementwise binary operation with NaN propagation. -/
def obin (f : ℚ → ℚ → ℚ) : Option ℚ → Option ℚ → Option ℚ
  | some a, some b => some (f a b)
  | _, _ => none

/-- Elementwise subtraction of two series. -/
def subS (xs ys : Series) : Series := List.zipWith (obin (· - ·)) xs ys

/-- Elementwise division of two series. -/
def divS (xs ys : Series) : Series := List.zipWith (obin (· / ·)) xs ys

/-- The values of `xs` at indices `start, start+1, ..., start+n-1`, provided
all of them are present. -/
def winVals (xs : Series) (start n : ℕ) : Option (List ℚ) :=
  if n ≤ (xs.drop start).length then seqOpt ((xs.drop start).take n) else none

/-- A causal indicator: entry `t` of the output is `g xs t`, where `g` only
reads `xs` at indices `≤ t`. -/
def cmap (g : Series → ℕ → Option ℚ) (xs : Series) : Series :=
  (List.range xs.length).map (g xs)

def listMax : List ℚ → ℚ
  | [] => 0
  | x :: r => r.foldl max x

def listMin : List ℚ → ℚ
  | [] => 0
  | x :: r => r.foldl min x

/-- Modelled from the spec: the external technical-indicator library's
`n`-period linearly weighted moving average (weights `1, …, n`, the most
recent value weighted `n`); undefined during the first `n - 1` warm-up steps
or when a window value is missing. -/
def lwmaAt (n : ℕ) (xs : Series) (t : ℕ) : Option ℚ :=
  if t + 1 < n then none else
    match winVals xs (t + 1 - n) n with
    | some vs =>
        some ((((List.range n).map (fun i => ((i + 1 : ℕ) : ℚ))).zipWith (· * ·) vs).sum /
              (((List.range n).map (fun i => ((i + 1 : ℕ) : ℚ))).sum))
    | none => none

def lwma (n : ℕ) (xs : Series) : Series := cmap (lwmaAt n) xs

/-- Modelled from the spec: the external library's `n`-period rate of change,
`(x_t - x_{t-n}) / x_{t-n} * 100`; undefined for `t < n` or on missing data. -/
def rocAt (n : ℕ) (xs : Series) (t : ℕ) : Option ℚ :=
  if t < n then none else
    match xs[t]?.join, xs[t - n]?.join with
    | some a, some b => some ((a - b) / b * 100)
    | _, _ => none

def roc (n : ℕ) (xs : Series) : Series := cmap (rocAt n) xs

/-- Modelled from the spec: the external library's `n`-period simple moving
average. -/
def smaAt (n : ℕ) (xs : Series) (t : ℕ) : Option ℚ :=
  if t + 1 < n then none else
    match winVals xs (t + 1 - n) n with
    | some vs => some (vs.sum / (n : ℚ))
    | none => none

def sma (n : ℕ) (xs : Series) : Series := cmap (smaAt n) xs

/-- Modelled from the spec: exponential moving-average step with smoothing
factor `α`; a missing input keeps the previous state. -/
def emaStep (al : ℚ) : Option ℚ → Option ℚ → Option ℚ
  | s, none => s
  | none, some v => some v
  | some p, some v => some (al * v + (1 - al) * p)

def emaGo (al : ℚ) (s : Option ℚ) : Series → Series
  | [] => []
  | x :: r =>
    let s' := emaStep al s x
    s' :: emaGo al s' r

/-- Modelled from the spec: `n`-period exponential moving average with the
conventional smoothing factor `2 / (n + 1)`. -/
def ema (n : ℕ) (xs : Series) : Series := emaGo (2 / ((n : ℚ) + 1)) none xs

/-- Modelled from the spec: the MACD line, `ema 12 - ema 26`. -/
def macd_line (xs : Series) : Series := subS (ema 12 xs) (ema 26 xs)

/-- Modelled from the spec: the 9-period signal line of the 12/26-period MACD. -/
def macd_signal (xs : Series) : Series := ema 9 (macd_line xs)

/-- Modelled from the spec: the external library's true range —
`high - low` at the first step, afterwards the maximum of `high - low`,
`|high - prevClose|` and `|low - prevClose|`. -/
def trAt (hi lo cl : Series) (t : ℕ) : Option ℚ :=
  match hi[t]?.join, lo[t]?.join with
  | some h, some l =>
    if t = 0 then some (h - l)
    else
      match cl[t - 1]?.join with
      | some c => some (max (h - l) (max |h - c| |l - c|))
      | none => none
  | _, _ => none

def tr (hi lo cl : Series) : Series := (List.range cl.length).map (trAt hi lo cl)

/-- Modelled from the spec: the raw `n`-period stochastic oscillator %K,
`100 * (close - lowestLow) / (highestHigh - lowestLow)` over the trailing
`n`-step window. -/
def stochKAt (hi lo cl : Series) (n t : ℕ) : Option ℚ :=
  if t + 1 < n then none else
    match winVals hi (t + 1 - n) n, winVals lo (t + 1 - n) n, cl[t]?.join with
    | some hs, some ls, some c =>
        some (100 * (c - listMin ls) / (listMax hs - listMin ls))
    | _, _, _ => none

def stoch_k (hi lo cl : Series) (n : ℕ) : Series :=
  (List.range cl.length).map (stochKAt hi lo cl n)

/-- Modelled from the spec: the smoothed stochastic %D, a 3-period simple
moving average of %K. -/
def stoch_d (hi lo cl : Series) (n : ℕ) : Series := sma 3 (stoch_k hi lo cl n)

/-- First differences `x_t - x_{t-1}`, undefined at `t = 0`. -/
def diffAt (xs : Series) (t : ℕ) : Option ℚ :=
  if t = 0 then none else
    match xs[t]?.join, xs[t - 1]?.join with
    | some a, some b => some (a - b)
    | _, _ => none

def diffS (xs : Series) : Series := cmap diffAt xs

/-- Modelled from the spec: the standard `n`-period relative strength index —
Wilder-smoothed average gain `g` and loss `l` of the one-step price changes,
combined as `100 * g / (g + l)` (the usual `100 - 100 / (1 + g / l)` in
division-safe form). -/
def rsi (n : ℕ) (xs : Series) : Series :=
  let d := diffS xs
  let g := d.map (Option.map (fun v => max v 0))
  let l := d.map (Option.map (fun v => max (-v) 0))
  List.zipWith (obin (fun a b => 100 * a / (a + b)))
    (emaGo (1 / (n : ℚ)) none g) (emaGo (1 / (n : ℚ)) none l)

/-- Forward fill: a missing value is replaced by the last preceding present
value, if any. -/
def ffillGo (s : Option ℚ) : Series → Series
  | [] => []
  | x :: r =>
    let s' := match x with | none => s | some v => some v
    s' :: ffillGo s' r

def ffill (xs : Series) : Series := ffillGo none xs

/-- Backward fill: a missing value is replaced by the next following present
value, if any. -/
def bfill (xs : Series) : Series := (ffillGo none xs.reverse).reverse

/-- Replace the remaining missing values by `0`. -/
def fillna0 (xs : Series) : List ℚ := xs.map (fun x => x.getD 0)

/-- Modelled from the spec: the external library's shift by `-1` — the value
one step in the future, missing at the final step. -/
def shiftm1 (xs : Series) : Series :=
  (List.range xs.length).map (fun t => xs[t + 1]?.join)

/-- The elementwise `>` comparison used by `xr.where`: a comparison with a
missing value is false. -/
def ogt : Option ℚ → Option ℚ → Bool
  | some a, some b => decide (b < a)
  | _, _ => false

/-- The price data of one asset: high / low / close series on a shared time
axis. -/
structure PriceAsset where
  high : Series
  low : Series
  close : Series
deriving DecidableEq

/-- Truncation of the input data to the first `n` time steps. -/
def PriceAsset.trunc (d : PriceAsset) (n : ℕ) : PriceAsset :=
  ⟨d.high.take n, d.low.take n, d.close.take n⟩

/-- The seven named feature channels, in the order of the notebook's
`get_features`. -/
inductive Feature where
  | trend
  | macd
  | volatility
  | stochastic_d
  | rsi
  | price
  | momentum
deriving DecidableEq

/-- Translation of the notebook's `get_features`, channel by channel:
trend = `roc(lwma(close, 60), 1)`, macd = 9-period signal of the
12/26 MACD of close, volatility = `lwma(tr(high, low, close) / close, 14)`,
stochastic_d = %D of `stochastic(high, low, close, 14)`,
rsi = `rsi(close, 14)`, price = `log(close.ffill.bfill.fillna(0))`,
momentum = `roc(close, 14)`. -/
def get_features (lg : ℚ → ℚ) (d : PriceAsset) : Feature → Series
  | .trend => roc 1 (lwma 60 d.close)
  | .macd => macd_signal d.close
  | .volatility => lwma 14 (divS (tr d.high d.low d.close) d.close)
  | .stochastic_d => stoch_d d.high d.low d.close 14
  | .rsi => rsi 14 d.close
  | .price => (fillna0 (bfill (ffill d.close))).map (fun v => some (lg v))
  | .momentum => roc 14 d.close

/-- Translation of the notebook's `get_target_classes`:
`xr.where(shift(close, -1) > close, 1, 0)`. -/
def get_target_classes (d : PriceAsset) : Series :=
  List.zipWith (fun f c => some (if ogt f c then (1 : ℚ) else 0))
    (shiftm1 d.close) d.close

/-- The seven channels in the notebook's concatenation order. -/
def featureList : List Feature :=
  [.trend, .macd, .volatility, .stochastic_d, .rsi, .price, .momentum]

/-- The feature row at time `t`: present exactly when every channel is
present there (the `dropna("time", "any")` criterion). -/
def featureRow (lg : ℚ → ℚ) (d : PriceAsset) (t : ℕ) : Option (List ℚ) :=
  seqOpt (featureList.map (fun ch => (get_features lg d ch)[t]?.join))

/-- The timestamps that survive `features.dropna("time", "any")`. -/
def rowValidTimes (lg : ℚ → ℚ) (d : PriceAsset) : List ℕ :=
  (List.range d.close.length).filter (fun t => (featureRow lg d t).isSome)

/-- The timestamps that survive `dropna` on a single series. -/
def dropnaTimes (s : Series) : List ℕ :=
  (List.range s.length).filter (fun t => (s[t]?.join).isSome)

/-- The timestamps surviving the inner join (`xr.align`) of the dropna-ed
features with the dropna-ed target. -/
def alignedTimes (lg : ℚ → ℚ) (d : PriceAsset) : List ℕ :=
  (rowValidTimes lg d).filter (fun t => t ∈ dropnaTimes (get_target_classes d))

/-- The (feature row, label) pairs fed to `model.fit` for one asset. -/
def trainingPairs (lg : ℚ → ℚ) (d : PriceAsset) : List (List ℚ × ℚ) :=
  (alignedTimes lg d).filterMap (fun t =>
    match featureRow lg d t, (get_target_classes d)[t]?.join with
    | some row, some y => some (row, y)
    | _, _ => none)

/-- A Python exception: either a user-initiated `KeyboardInterrupt` or an
ordinary error. -/
structure PyErr where
  interrupt : Bool
deriving DecidableEq

deriving instance DecidableEq for Except

/-- A fitted 5-nearest-neighbours regressor is fully determined by its stored
training pairs. -/
structure KModel where
  pairs : List (List ℚ × ℚ)
deriving DecidableEq

/-- A multi-asset price tensor: the asset coordinate axis and the per-asset
series. -/
structure AssetData where
  assets : List ℕ
  series : ℕ → PriceAsset

/-- First-match lookup in an association list (the model dictionary and the
weights tensor are keyed by asset). -/
def lookupA {β : Type} (a : ℕ) : List (ℕ × β) → Option β
  | [] => none
  | (k, v) :: r => if a = k then some v else lookupA a r

/-- One iteration of the notebook's `train_model` loop: drop missing rows,
check `len(features_cur.time) < 10`, fit, and on any exception (the bare
`except:`) log and skip the asset. -/
def trainStep (lg : ℚ → ℚ) (fit : List (List ℚ × ℚ) → Except PyErr KModel)
    (data : AssetData) (models : List (ℕ × KModel)) (a : ℕ) : List (ℕ × KModel) :=
  let d := data.series a
  if (rowValidTimes lg d).length < 10 then models
  else
    match fit (trainingPairs lg d) with
    | .ok m => models ++ [(a, m)]
    | .error _ => models

/-- Translation of the notebook's walk-forward `train_model`. -/
def train_model (lg : ℚ → ℚ) (fit : List (List ℚ × ℚ) → Except PyErr KModel)
    (data : AssetData) : List (ℕ × KModel) :=
  data.assets.foldl (trainStep lg fit data) []

/-- The weights tensor, one time-indexed slice per asset. -/
abbrev Weights := List (ℕ × List ℚ)

/-- Translation of `xr.zeros_like(data.sel(field="close"))`. -/
def zerosLike (data : AssetData) : Weights :=
  data.assets.map (fun a => (a, (data.series a).close.map (fun _ => (0 : ℚ))))

/-- Assign values at the given (time, value) coordinates of one asset slice. -/
def setTimes (s : List ℚ) (tv : List (ℕ × ℚ)) : List ℚ :=
  tv.foldl (fun s p => s.set p.1 p.2) s

/-- Translation of `weights.loc[dict(asset=a, time=ts)] = vals`. -/
def wwrite (w : Weights) (a : ℕ) (tv : List (ℕ × ℚ)) : Weights :=
  w.map (fun p => if p.1 = a then (p.1, setTimes p.2 tv) else p)

/-- Read one weight: `none` when the asset or the time is outside the tensor. -/
def wget (w : Weights) (a t : ℕ) : Option ℚ :=
  (lookupA a w).bind (fun s => s[t]?)

/-- One iteration of the notebook's `predict_weights` loop: only assets with a
model, drop missing feature rows, skip on zero valid rows, re-raise
`KeyboardInterrupt`, log and skip any other prediction failure. -/
def predStep (lg : ℚ → ℚ)
    (predictF : KModel → List (List ℚ) → Except PyErr (List ℚ))
    (models : List (ℕ × KModel)) (data : AssetData) (w : Weights) (a : ℕ) :
    Except PyErr Weights :=
  match lookupA a models with
  | none => .ok w
  | some m =>
    let d := data.series a
    let ts := rowValidTimes lg d
    if ts.length < 1 then .ok w
    else
      match predictF m (ts.filterMap (featureRow lg d)) with
      | .ok preds => .ok (wwrite w a (ts.zip preds))
      | .error e => if e.interrupt then .error e else .ok w

/-- Translation of the notebook's `predict_weights`. -/
def predict_weights (lg : ℚ → ℚ)
    (predictF : KModel → List (List ℚ) → Except PyErr (List ℚ))
    (models : List (ℕ × KModel)) (data : AssetData) : Except PyErr Weights :=
  data.assets.foldlM (predStep lg predictF models data) (zerosLike data)

/-- Squared Euclidean distance between two feature rows. -/
def sqDist (x y : List ℚ) : ℚ := (List.zipWith (fun a b => (a - b) ^ 2) x y).sum

/-- Modelled from the spec: prediction of the fitted
`KNeighborsRegressor(n_neighbors=5)` — the mean label of the `k` stored
training pairs nearest to the query row. -/
def knnPredict (k : ℕ) (m : KModel) (x : List ℚ) : ℚ :=
  ((((m.pairs.insertionSort (fun p q => sqDist p.1 x ≤ sqDist q.1 x)).take k).map
    Prod.snd).sum) /
  ((((m.pairs.insertionSort (fun p q => sqDist p.1 x ≤ sqDist q.1 x)).take k).length : ℕ) : ℚ)

/-- Modelled from the spec: `KNeighborsRegressor.fit` stores the training
pairs and succeeds. -/
def knnFit (prs : List (List ℚ × ℚ)) : Except PyErr KModel := .ok ⟨prs⟩

/-- Modelled from the spec: batch `model.predict` over the valid feature
rows. -/
def knnPredictF (m : KModel) (rows : List (List ℚ)) : Except PyErr (List ℚ) :=
  .ok (rows.map (knnPredict 5 m))

/-- A constant asset: 70 days with `high = c + 1`, `low = close = c`. -/
def constAsset (c : ℚ) : PriceAsset :=
  ⟨List.replicate 70 (some (c + 1)), List.replicate 70 (some c),
   List.replicate 70 (some c)⟩

/-! ### Causality (no-lookahead) infrastructure -/

theorem winVals_take (xs : Series) {start n m : ℕ} (h : start + n ≤ m) :
    winVals (xs.take m) start n = winVals xs start n := by
  unfold winVals
  rw [List.drop_take, List.take_take]
  have hmin : min n (m - start) = n := by omega
  rw [hmin]
  simp only [List.length_take, List.length_drop]
  by_cases hc : n ≤ xs.length - start
  · rw [if_pos (by omega), if_pos hc]
  · rw [if_neg (by omega), if_neg hc]

theorem lwmaAt_take (n : ℕ) (xs : Series) {m t : ℕ} (h : t < m) :
    lwmaAt n (xs.take m) t = lwmaAt n xs t := by
  unfold lwmaAt
  by_cases h1 : t + 1 < n
  · rw [if_pos h1, if_pos h1]
  · rw [if_neg h1, if_neg h1, winVals_take xs (by omega)]

theorem rocAt_take (n : ℕ) (xs : Series) {m t : ℕ} (h : t < m) :
    rocAt n (xs.take m) t = rocAt n xs t := by
  unfold rocAt
  by_cases h1 : t < n
  · rw [if_pos h1, if_pos h1]
  · rw [if_neg h1, if_neg h1, List.getElem?_take_of_lt h,
      List.getElem?_take_of_lt (by omega : t - n < m)]

theorem smaAt_take (n : ℕ) (xs : Series) {m t : ℕ} (h : t < m) :
    smaAt n (xs.take m) t = smaAt n xs t := by
  unfold smaAt
  by_cases h1 : t + 1 < n
  · rw [if_pos h1, if_pos h1]
  · rw [if_neg h1, if_neg h1, winVals_take xs (by omega)]

theorem diffAt_take (xs : Series) {m t : ℕ} (h : t < m) :
    diffAt (xs.take m) t = diffAt xs t := by
  unfold diffAt
  by_cases h1 : t = 0
  · rw [if_pos h1, if_pos h1]
  · rw [if_neg h1, if_neg h1, List.getElem?_take_of_lt h,
      List.getElem?_take_of_lt (by omega : t - 1 < m)]

theorem cmap_take (g : Series → ℕ → Option ℚ)
    (hg : ∀ (xs : Series) (m t : ℕ), t < m → g (xs.take m) t = g xs t)
    (xs : Series) (m : ℕ) :
    cmap g (xs.take m) = (cmap g xs).take m := by
  unfold cmap
  rw [List.length_take, ← List.map_take, List.take_range]
  exact List.map_congr_left (fun t ht => hg xs m t (by
    have := List.mem_range.mp ht; omega))

theorem lwma_take (n : ℕ) (xs : Series) (m : ℕ) :
    lwma n (xs.take m) = (lwma n xs).take m :=
  cmap_take (lwmaAt n) (fun xs m t h => lwmaAt_take n xs h) xs m

theorem roc_take (n : ℕ) (xs : Series) (m : ℕ) :
    roc n (xs.take m) = (roc n xs).take m :=
  cmap_take (rocAt n) (fun xs m t h => rocAt_take n xs h) xs m

theorem sma_take (n : ℕ) (xs : Series) (m : ℕ) :
    sma n (xs.take m) = (sma n xs).take m :=
  cmap_take (smaAt n) (fun xs m t h => smaAt_take n xs h) xs m

theorem diffS_take (xs : Series) (m : ℕ) :
    diffS (xs.take m) = (diffS xs).take m :=
  cmap_take diffAt (fun xs m t h => diffAt_take xs h) xs m

theorem emaGo_take (al : ℚ) (s : Option ℚ) (xs : Series) (m : ℕ) :
    emaGo al s (xs.take m) = (emaGo al s xs).take m := by
  induction xs generalizing s m with
  | nil => simp [emaGo]
  | cons x r ih =>
    cases m with
    | zero => simp [emaGo]
    | succ k => simp only [List.take_succ_cons, emaGo, ih]

theorem ema_take (n : ℕ) (xs : Series) (m : ℕ) :
    ema n (xs.take m) = (ema n xs).take m := emaGo_take ..

theorem subS_take (xs ys : Series) (m : ℕ) :
    subS (xs.take m) (ys.take m) = (subS xs ys).take m := (List.take_zipWith ..).symm

theorem divS_take (xs ys : Series) (m : ℕ) :
    divS (xs.take m) (ys.take m) = (divS xs ys).take m := (List.take_zipWith ..).symm

theorem macd_signal_take (xs : Series) (m : ℕ) :
    macd_signal (xs.take m) = (macd_signal xs).take m := by
  unfold macd_signal macd_line
  rw [ema_take, ema_take, subS_take, ema_take]

theorem trAt_take (hi lo cl : Series) {m t : ℕ} (h : t < m) :
    trAt (hi.take m) (lo.take m) (cl.take m) t = trAt hi lo cl t := by
  unfold trAt
  rw [List.getElem?_take_of_lt h, List.getElem?_take_of_lt h,
    List.getElem?_take_of_lt (by omega : t - 1 < m)]

theorem tr_take (hi lo cl : Series) (m : ℕ) :
    tr (hi.take m) (lo.take m) (cl.take m) = (tr hi lo cl).take m := by
  unfold tr
  rw [List.length_take, ← List.map_take, List.take_range]
  exact List.map_congr_left (fun t ht => trAt_take hi lo cl (by
    have := List.mem_range.mp ht; omega))

theorem stochKAt_take (hi lo cl : Series) (n : ℕ) {m t : ℕ} (h : t < m) :
    stochKAt (hi.take m) (lo.take m) (cl.take m) n t = stochKAt hi lo cl n t := by
  unfold stochKAt
  by_cases h1 : t + 1 < n
  · rw [if_pos h1, if_pos h1]
  · rw [if_neg h1, if_neg h1, winVals_take hi (by omega), winVals_take lo (by omega),
      List.getElem?_take_of_lt h]

theorem stoch_k_take (hi lo cl : Series) (n m : ℕ) :
    stoch_k (hi.take m) (lo.take m) (cl.take m) n = (stoch_k hi lo cl n).take m := by
  unfold stoch_k
  rw [List.length_take, ← List.map_take, List.take_range]
  exact List.map_congr_left (fun t ht => stochKAt_take hi lo cl n (by
    have := List.mem_range.mp ht; omega))

theorem stoch_d_take (hi lo cl : Series) (n m : ℕ) :
    stoch_d (hi.take m) (lo.take m) (cl.take m) n = (stoch_d hi lo cl n).take m := by
  unfold stoch_d
  rw [stoch_k_take, sma_take]

theorem rsi_take (n : ℕ) (xs : Series) (m : ℕ) :
    rsi n (xs.take m) = (rsi n xs).take m := by
  dsimp only [rsi]
  rw [diffS_take, List.map_take, List.map_take, emaGo_take, emaGo_take,
    ← List.take_zipWith]

/-- Every feature channel except the log-price channel commutes with
truncation of the input data. -/
theorem get_features_take (lg : ℚ → ℚ) (d : PriceAsset) (ch : Feature)
    (hch : ch ≠ Feature.price) (n : ℕ) :
    get_features lg (d.trunc n) ch = (get_features lg d ch).take n := by
  cases ch with
  | trend =>
      show roc 1 (lwma 60 (d.close.take n)) = _
      rw [lwma_take, roc_take]; rfl
  | macd => exact macd_signal_take d.close n
  | volatility =>
      show lwma 14 (divS (tr (d.high.take n) (d.low.take n) (d.close.take n))
        (d.close.take n)) = _
      rw [tr_take, divS_take, lwma_take]; rfl
  | stochastic_d => exact stoch_d_take d.high d.low d.close 14 n
  | rsi => exact rsi_take 14 d.close n
  | price => exact absurd rfl hch
  | momentum => exact roc_take 14 d.close n

/-! ### Pointwise access lemmas -/

theorem getElem?_zipWith {α β γ : Type} (f : α → β → γ) (as : List α) (bs : List β)
    (t : ℕ) :
    (List.zipWith f as bs)[t]? = as[t]?.bind (fun a => bs[t]?.map (f a)) := by
  induction as generalizing bs t with
  | nil => simp
  | cons a as ih =>
    cases bs with
    | nil => simp
    | cons b bs =>
      cases t with
      | zero => simp
      | succ k => simpa using ih bs k

theorem ogt_none_left (c : Option ℚ) : ogt none c = false := by
  cases c <;> rfl

/-! ### C1: no lookahead in the feature extractor -/

/-- The no-lookahead property exactly as the specification claims it, for
every feature channel including the log-price channel: truncating the input
series to times `≤ t` and recomputing features for time `t` yields the value
computed on the full series. -/
def NoLookahead : Prop :=
  ∀ (lg : ℚ → ℚ) (d : PriceAsset) (ch : Feature) (t : ℕ),
    (get_features lg (d.trunc (t + 1)) ch)[t]? = (get_features lg d ch)[t]?

/-- C1 (counterexample): the claimed no-lookahead property is false, because
the price channel backward-fills a leading missing close from the future:
with closes `[NaN, 5]`, the price channel at time 0 reads `5` on the full
series but `0` after truncation to times `≤ 0` — a dependence on future
data, present already before the logarithm is applied. -/
theorem c1_no_lookahead_counterexample :
    ¬ NoLookahead ∧
    (get_features id ⟨[none, none], [none, none], [none, some 5]⟩ Feature.price)[0]?
      = some (some 5) ∧
    (get_features id ((⟨[none, none], [none, none], [none, some 5]⟩ : PriceAsset).trunc 1)
      Feature.price)[0]? = some (some 0) := by
  refine ⟨fun h => ?_, by with_unfolding_all decide, by with_unfolding_all decide⟩
  have h5 := h id ⟨[none, none], [none, none], [none, some 5]⟩ Feature.price 0
  exact absurd h5 (by with_unfolding_all decide)

/-- C1 (amended): every feature channel other than the log-price channel has
no lookahead — truncating the input Price Series to times `≤ t` and
recomputing the feature at time `t` gives the value computed on the full
series. -/
theorem c1_no_lookahead_amended (lg : ℚ → ℚ) (d : PriceAsset) (ch : Feature) (t : ℕ)
    (hch : ch ≠ Feature.price) :
    (get_features lg (d.trunc (t + 1)) ch)[t]? = (get_features lg d ch)[t]? := by
  rw [get_features_take lg d ch hch (t + 1),
    List.getElem?_take_of_lt (Nat.lt_succ_self t)]

theorem c1_no_lookahead_amended_witness :
    Feature.trend ≠ Feature.price ∧
    (get_features id ((⟨[some 2], [some 1], [some 1]⟩ : PriceAsset).trunc 1)
        Feature.trend)[0]? =
      (get_features id (⟨[some 2], [some 1], [some 1]⟩ : PriceAsset) Feature.trend)[0]? :=
  ⟨by decide, c1_no_lookahead_amended id ⟨[some 2], [some 1], [some 1]⟩ Feature.trend 0
    (by decide)⟩

/-! ### C3: the label generator -/

/-- The close sequence of the specification's label example. -/
def exClose : Series := [some 10, some 12, some 11, some 11, some 13]

/-- C3 (counterexample): on `[10, 12, 11, 11, 13]` the label generator
returns `[1, 0, 0, 1, 0]` — the final entry is `0`, not missing, because the
missing future close compares as not-greater inside `xr.where`. -/
theorem c3_labels_counterexample :
    get_target_classes ⟨[], [], exClose⟩
      = [some 1, some 0, some 0, some 1, some 0] ∧
    (get_target_classes ⟨[], [], exClose⟩)[4]? ≠ some none := by
  exact ⟨by with_unfolding_all decide, by with_unfolding_all decide⟩

/-- C3 (amended): `value(t) = 1` if `close(t+1) > close(t)` and `0`
otherwise, and at the final time step — where no `t+1` exists — the
comparison with the missing future close yields `0` (not a missing value). -/
theorem c3_labels_amended (d : PriceAsset) :
    (∀ t a b, d.close[t]? = some (some b) → d.close[t + 1]? = some (some a) →
      (get_target_classes d)[t]? = some (some (if b < a then (1 : ℚ) else 0))) ∧
    (∀ t, t + 1 = d.close.length → (get_target_classes d)[t]? = some (some 0)) := by
  constructor
  · intro t a b hb ha
    have hlen : t < d.close.length := (List.getElem?_eq_some.mp hb).1
    have hs : (shiftm1 d.close)[t]? = some (some a) := by
      simp [shiftm1, List.getElem?_range hlen, ha]
    rw [get_target_classes, getElem?_zipWith, hs, hb]
    simp [ogt]
  · intro t ht
    have hlen : t < d.close.length := by omega
    have hnone : d.close[t + 1]? = none := List.getElem?_eq_none (by omega)
    have hs : (shiftm1 d.close)[t]? = some none := by
      simp [shiftm1, List.getElem?_range hlen, hnone]
    rw [get_target_classes, getElem?_zipWith, hs, List.getElem?_eq_getElem hlen]
    simp [ogt_none_left]

theorem c3_labels_amended_witness :
    (get_target_classes ⟨[], [], exClose⟩)[0]? = some (some 1) ∧
    (get_target_classes ⟨[], [], exClose⟩)[4]? = some (some 0) := by
  refine ⟨?_, (c3_labels_amended ⟨[], [], exClose⟩).2 4 (by with_unfolding_all decide)⟩
  have h := (c3_labels_amended ⟨[], [], exClose⟩).1 0 12 10
    (by with_unfolding_all decide) (by with_unfolding_all decide)
  rw [h, if_pos (by with_unfolding_all decide)]

/-! ### C8: the feature formulas -/

/-- Modelled from the spec: the Feature Tensor channels exactly as §4.1 words
them — trend: rate-of-change of a 60-period weighted moving average of
close; macd: 9-period signal line of a 12/26-period MACD of close;
volatility: 14-period weighted moving average of true range normalized by
close; stochastic %D: smoothed 14-period stochastic oscillator; rsi:
standard 14-period relative strength index; price: natural log of close with
missing values forward-filled then back-filled then zero-filled; momentum:
14-period rate of change of close. -/
def specFeature (lg : ℚ → ℚ) (d : PriceAsset) : Feature → Series
  | .trend => roc 1 (lwma 60 d.close)
  | .macd => macd_signal d.close
  | .volatility => lwma 14 (divS (tr d.high d.low d.close) d.close)
  | .stochastic_d => stoch_d d.high d.low d.close 14
  | .rsi => rsi 14 d.close
  | .price => (fillna0 (bfill (ffill d.close))).map (fun v => some (lg v))
  | .momentum => roc 14 d.close

/-- C8: the seven channels produced by `get_features` are computed by exactly
the formulas the specification lists. -/
theorem c8_feature_formulas (lg : ℚ → ℚ) (d : PriceAsset) (ch : Feature) :
    get_features lg d ch = specFeature lg d ch := by
  cases ch <;> rfl

/-! ### C9: determinism of the feature extractor -/

/-- C9: the feature extractor is a pure function — two runs on identical
input Price Series produce identical Feature Tensors. -/
theorem c9_deterministic (lg : ℚ → ℚ) (d e : PriceAsset) (h : d = e) :
    get_features lg d = get_features lg e := by rw [h]

theorem c9_deterministic_witness :
    get_features id (constAsset 1) = get_features id (constAsset 1) :=
  c9_deterministic id (constAsset 1) (constAsset 1) rfl

/-! ### Trainer lemmas -/

theorem lookupA_append_of_none {β : Type} (b : ℕ) (l1 l2 : List (ℕ × β))
    (h : lookupA b l1 = none) : lookupA b (l1 ++ l2) = lookupA b l2 := by
  induction l1 with
  | nil => rfl
  | cons p r ih =>
    obtain ⟨k, v⟩ := p
    simp only [List.cons_append, lookupA] at h ⊢
    by_cases hbk : b = k
    · rw [if_pos hbk] at h; cases h
    · rw [if_neg hbk] at h ⊢; exact ih h

/-- Every label the generator produces is present: the `xr.where(…, 1, 0)`
output carries no missing values. -/
theorem targ_defined (d : PriceAsset) (t : ℕ) (h : t < d.close.length) :
    ∃ v : ℚ, (get_target_classes d)[t]? = some (some v) := by
  have hs : ∃ f, (shiftm1 d.close)[t]? = some f := by
    simp [shiftm1, List.getElem?_range h]
  obtain ⟨f, hf⟩ := hs
  rw [get_target_classes, getElem?_zipWith, hf, List.getElem?_eq_getElem h]
  exact ⟨if ogt f (d.close.get ⟨t, h⟩) then 1 else 0, rfl⟩

theorem length_get_target_classes (d : PriceAsset) :
    (get_target_classes d).length = d.close.length := by
  simp [get_target_classes, shiftm1]

/-- Dropping missing values from the label series drops nothing. -/
theorem dropnaTimes_targ (d : PriceAsset) :
    dropnaTimes (get_target_classes d) = List.range d.close.length := by
  unfold dropnaTimes
  rw [length_get_target_classes]
  rw [List.filter_eq_self]
  intro t ht
  obtain ⟨v, hv⟩ := targ_defined d t (List.mem_range.mp ht)
  rw [hv]
  rfl

/-- Because the label series is everywhere defined, the inner join keeps
exactly the valid feature rows: the aligned sample count equals the
`len(features_cur.time)` count the code tests. -/
theorem alignedTimes_eq (lg : ℚ → ℚ) (d : PriceAsset) :
    alignedTimes lg d = rowValidTimes lg d := by
  unfold alignedTimes
  rw [List.filter_eq_self]
  intro t ht
  have htr : t ∈ List.range d.close.length := List.mem_of_mem_filter ht
  rw [dropnaTimes_targ]
  simpa using htr

theorem trainStep_lookup_none (lg : ℚ → ℚ) (fit : List (List ℚ × ℚ) → Except PyErr KModel)
    (data : AssetData) (b : ℕ)
    (hb : (rowValidTimes lg (data.series b)).length < 10 ∨
      ∀ m, fit (trainingPairs lg (data.series b)) ≠ Except.ok m) :
    ∀ (l : List ℕ) (acc : List (ℕ × KModel)), lookupA b acc = none →
      lookupA b (l.foldl (trainStep lg fit data) acc) = none := by
  intro l
  induction l with
  | nil => intro acc h; exact h
  | cons a as ih =>
    intro acc hacc
    apply ih
    unfold trainStep
    by_cases hc : (rowValidTimes lg (data.series a)).length < 10
    · rw [if_pos hc]; exact hacc
    · rw [if_neg hc]
      cases hf : fit (trainingPairs lg (data.series a)) with
      | error e => exact hacc
      | ok m =>
        by_cases hab : b = a
        · subst hab
          cases hb with
          | inl h10 => exact absurd h10 hc
          | inr hne => exact absurd hf (hne m)
        · rw [lookupA_append_of_none b acc _ hacc]
          simp only [lookupA]
          rw [if_neg hab]

theorem foldl_trainStep_subset (lg : ℚ → ℚ) (fit : List (List ℚ × ℚ) → Except PyErr KModel)
    (data : AssetData) :
    ∀ (l : List ℕ) (acc : List (ℕ × KModel)) (p : ℕ × KModel), p ∈ acc →
      p ∈ l.foldl (trainStep lg fit data) acc := by
  intro l
  induction l with
  | nil => intro acc p h; exact h
  | cons a as ih =>
    intro acc p h
    apply ih
    unfold trainStep
    by_cases hc : (rowValidTimes lg (data.series a)).length < 10
    · rw [if_pos hc]; exact h
    · rw [if_neg hc]
      cases fit (trainingPairs lg (data.series a)) with
      | error e => exact h
      | ok m => exact List.mem_append_left _ h

theorem train_model_mem (lg : ℚ → ℚ) (fit : List (List ℚ × ℚ) → Except PyErr KModel)
    (data : AssetData) (a : ℕ) (ma : KModel)
    (ha : a ∈ data.assets)
    (hca : ¬ (rowValidTimes lg (data.series a)).length < 10)
    (hfa : fit (trainingPairs lg (data.series a)) = .ok ma) :
    (a, ma) ∈ train_model lg fit data := by
  unfold train_model
  suffices hgen : ∀ (l : List ℕ) (acc : List (ℕ × KModel)), a ∈ l →
      (a, ma) ∈ l.foldl (trainStep lg fit data) acc from
    hgen data.assets [] ha
  intro l
  induction l with
  | nil => intro acc h; cases h
  | cons x xs ih =>
    intro acc h
    by_cases hax : a = x
    · subst hax
      have hstep : trainStep lg fit data acc a = acc ++ [(a, ma)] := by
        unfold trainStep
        rw [if_neg hca, hfa]
      rw [List.foldl_cons, hstep]
      exact foldl_trainStep_subset lg fit data xs _ (a, ma)
        (List.mem_append_right _ (List.mem_singleton.mpr rfl))
    · rcases List.mem_cons.mp h with h1 | h2
      · exact absurd h1 hax
      · rw [List.foldl_cons]
        exact ih _ h2

/-! ### C2: the insufficient-data skip -/

set_option maxRecDepth 100000

/-- C2: an asset whose aligned (feature, label) sample count after dropping
missing rows and inner-joining on shared timestamps is below 10 gets no
entry in the model mapping returned by `train_model`; the trainer returns
normally (a plain mapping), so this is a skip, not an error. -/
theorem c2_insufficient_samples_skipped (lg : ℚ → ℚ)
    (fit : List (List ℚ × ℚ) → Except PyErr KModel) (data : AssetData) (a : ℕ)
    (h : (alignedTimes lg (data.series a)).length < 10) :
    lookupA a (train_model lg fit data) = none := by
  rw [alignedTimes_eq] at h
  exact trainStep_lookup_none lg fit data a (Or.inl h) data.assets [] rfl

/-- A one-asset universe whose asset has an empty history. -/
def dataEmpty : AssetData := ⟨[0], fun _ => ⟨[], [], []⟩⟩

theorem c2_insufficient_samples_skipped_witness :
    (alignedTimes id (dataEmpty.series 0)).length < 10 ∧
    lookupA 0 (train_model id knnFit dataEmpty) = none :=
  ⟨by with_unfolding_all decide,
   c2_insufficient_samples_skipped id knnFit dataEmpty 0 (by with_unfolding_all decide)⟩

/-! ### C6: fit failure skips one asset, training continues -/

/-- C6: if fitting fails with an (ordinary) exception for asset `b` while
asset `a` has enough samples and fits successfully, `train_model` still
contains `a`'s model and contains no entry for `b`: a single asset's fitting
failure never aborts the batch. -/
theorem c6_fit_failure_skip_and_continue (lg : ℚ → ℚ)
    (fit : List (List ℚ × ℚ) → Except PyErr KModel) (data : AssetData)
    (a b : ℕ) (ma : KModel) (eb : PyErr)
    (ha : a ∈ data.assets)
    (hca : 10 ≤ (rowValidTimes lg (data.series a)).length)
    (hfa : fit (trainingPairs lg (data.series a)) = .ok ma)
    (hfb : fit (trainingPairs lg (data.series b)) = .error eb) :
    (a, ma) ∈ train_model lg fit data ∧
    lookupA b (train_model lg fit data) = none := by
  refine ⟨train_model_mem lg fit data a ma ha (by omega) hfa, ?_⟩
  refine trainStep_lookup_none lg fit data b (Or.inr (fun m hm => ?_)) data.assets [] rfl
  rw [hfb] at hm
  cases hm

/-- A fitter that fails (with an ordinary exception) exactly on the training
pairs of the constant-3 asset and succeeds on every other input. -/
def fitEx (prs : List (List ℚ × ℚ)) : Except PyErr KModel :=
  if prs = trainingPairs id (constAsset 3) then .error ⟨false⟩ else .ok ⟨prs⟩

/-- Five assets with constant price levels 1, 2, 3, 4, 5. -/
def dataFive : AssetData :=
  ⟨[0, 1, 2, 3, 4], fun a => constAsset (if a = 0 then 1 else if a = 1 then 2
    else if a = 2 then 3 else if a = 3 then 4 else 5)⟩

theorem c6_fit_failure_skip_and_continue_witness :
    (0, KModel.mk (trainingPairs id (constAsset 1))) ∈ train_model id fitEx dataFive ∧
    lookupA 2 (train_model id fitEx dataFive) = none :=
  c6_fit_failure_skip_and_continue id fitEx dataFive 0 2
    ⟨trainingPairs id (constAsset 1)⟩ ⟨false⟩
    (by with_unfolding_all decide)
    (by with_unfolding_all decide)
    (by with_unfolding_all decide)
    (by with_unfolding_all decide)

/-! ### C5: interrupt handling -/

/-- A one-asset universe with 70 days of constant data, enough for the
10-sample training minimum to be met. -/
def dataOne : AssetData := ⟨[0], fun _ => constAsset 1⟩

/-- C5: divergent interrupt handling.  A `KeyboardInterrupt` raised inside
`model.fit` is swallowed by `train_model`'s bare `except:` — the trainer
returns an ordinary (empty) mapping instead of aborting — while the same
interrupt raised inside `model.predict` is re-raised by `predict_weights`
and aborts the run, as the specification demands for both. -/
theorem c5_interrupt_swallowed_in_train :
    train_model id (fun _ => .error ⟨true⟩) dataOne = [] ∧
    predict_weights id (fun _ _ => .error ⟨true⟩) [(0, ⟨[]⟩)] dataOne
      = .error ⟨true⟩ := by
  exact ⟨by with_unfolding_all decide, by with_unfolding_all decide⟩

/-! ### Predictor lemmas -/

theorem except_bind_ok {ε α β : Type} (a : α) (f : α → Except ε β) :
    (Except.ok a >>= f) = f a := rfl

theorem except_bind_error {ε α β : Type} (e : ε) (f : α → Except ε β) :
    (Except.error e >>= f) = Except.error e := rfl

theorem foldlM_except_inv {α β ε : Type} (P : β → Prop) (step : β → α → Except ε β)
    (hstep : ∀ b x b', P b → step b x = .ok b' → P b') :
    ∀ (l : List α) (b b' : β), P b → l.foldlM step b = .ok b' → P b' := by
  intro l
  induction l with
  | nil =>
    intro b b' hP h
    injection h with h
    rw [← h]; exact hP
  | cons x xs ih =>
    intro b b' hP h
    rw [List.foldlM_cons] at h
    cases hs : step b x with
    | error e => rw [hs, except_bind_error] at h; cases h
    | ok b1 =>
      rw [hs, except_bind_ok] at h
      exact ih b1 b' (hstep b x b1 hP hs) h

theorem lookupA_mem {β : Type} (a : ℕ) (l : List (ℕ × β)) (m : β)
    (h : lookupA a l = some m) : (a, m) ∈ l := by
  induction l with
  | nil => cases h
  | cons p r ih =>
    obtain ⟨k, v⟩ := p
    simp only [lookupA] at h
    by_cases hak : a = k
    · rw [if_pos hak] at h
      injection h with h
      rw [hak, h]
      exact List.mem_cons_self ..
    · rw [if_neg hak] at h
      exact List.mem_cons_of_mem _ (ih h)

theorem lookupA_map_self {β : Type} (f : ℕ → β) (l : List ℕ) (a : ℕ) (h : a ∈ l) :
    lookupA a (l.map (fun x => (x, f x))) = some (f a) := by
  induction l with
  | nil => cases h
  | cons x xs ih =>
    simp only [List.map_cons, lookupA]
    by_cases hax : a = x
    · rw [if_pos hax, hax]
    · rw [if_neg hax]
      exact ih (List.mem_of_ne_of_mem hax h)

theorem lookupA_map_val {β : Type} (f : ℕ → β) (l : List ℕ) (a : ℕ) (s : β)
    (h : lookupA a (l.map (fun x => (x, f x))) = some s) : s = f a := by
  induction l with
  | nil => cases h
  | cons x xs ih =>
    simp only [List.map_cons, lookupA] at h
    by_cases hax : a = x
    · rw [if_pos hax] at h
      injection h with h
      rw [← h, hax]
    · rw [if_neg hax] at h
      exact ih h

theorem setTimes_getElem?_not_mem (s : List ℚ) (tv : List (ℕ × ℚ)) (t : ℕ)
    (h : t ∉ tv.map Prod.fst) : (setTimes s tv)[t]? = s[t]? := by
  induction tv generalizing s with
  | nil => rfl
  | cons p r ih =>
    have h1 : t ∉ r.map Prod.fst := fun hm => h (by
      rw [List.map_cons]; exact List.mem_cons_of_mem _ hm)
    have h2 : p.1 ≠ t := fun he => h (by
      rw [List.map_cons, he]; exact List.mem_cons_self ..)
    calc (setTimes s (p :: r))[t]? = (setTimes (s.set p.1 p.2) r)[t]? := rfl
      _ = (s.set p.1 p.2)[t]? := ih _ h1
      _ = s[t]? := List.getElem?_set_ne h2

theorem setTimes_getElem?_cases (s : List ℚ) (tv : List (ℕ × ℚ)) (t : ℕ) (q : ℚ)
    (h : (setTimes s tv)[t]? = some q) : s[t]? = some q ∨ q ∈ tv.map Prod.snd := by
  induction tv generalizing s with
  | nil => exact Or.inl h
  | cons p r ih =>
    rcases ih (s.set p.1 p.2) h with h1 | h2
    · rw [List.getElem?_set] at h1
      by_cases hpt : p.1 = t
      · rw [if_pos hpt] at h1
        by_cases hlen : p.1 < s.length
        · rw [if_pos hlen] at h1
          injection h1 with h1
          refine Or.inr ?_
          rw [List.map_cons, ← h1]
          exact List.mem_cons_self ..
        · rw [if_neg hlen] at h1; cases h1
      · rw [if_neg hpt] at h1; exact Or.inl h1
    · refine Or.inr ?_
      rw [List.map_cons]
      exact List.mem_cons_of_mem _ h2

theorem lookupA_wwrite (w : Weights) (a : ℕ) (tv : List (ℕ × ℚ)) (b : ℕ) :
    lookupA b (wwrite w a tv) =
      if b = a then (lookupA b w).map (fun s => setTimes s tv) else lookupA b w := by
  induction w with
  | nil =>
    simp only [wwrite, List.map_nil, lookupA]
    by_cases hba : b = a
    · rw [if_pos hba]; rfl
    · rw [if_neg hba]
  | cons p r ih =>
    obtain ⟨k, s⟩ := p
    show lookupA b ((if k = a then (k, setTimes s tv) else (k, s)) :: wwrite r a tv) = _
    by_cases hka : k = a
    · rw [if_pos hka]
      simp only [lookupA]
      by_cases hbk : b = k
      · rw [if_pos hbk, if_pos (hbk.trans hka), if_pos hbk]
        rfl
      · rw [if_neg hbk, ih]
        simp only [if_neg hbk]
    · rw [if_neg hka]
      simp only [lookupA]
      by_cases hbk : b = k
      · have hba : ¬ b = a := fun hba => hka ((hbk.symm.trans hba))
        rw [if_pos hbk, if_neg hba, if_pos hbk]
      · rw [if_neg hbk, ih]
        simp only [if_neg hbk]

/-- A weight read from the freshly initialized zero tensor is zero. -/
theorem wget_zerosLike (data : AssetData) (a t : ℕ) (ha : a ∈ data.assets)
    (ht : t < (data.series a).close.length) :
    wget (zerosLike data) a t = some 0 := by
  unfold wget zerosLike
  rw [lookupA_map_self _ _ _ ha]
  show ((data.series a).close.map (fun _ => (0 : ℚ)))[t]? = some 0
  rw [List.getElem?_map, List.getElem?_eq_getElem ht]
  rfl

theorem wget_zerosLike_val (data : AssetData) (a t : ℕ) (q : ℚ)
    (h : wget (zerosLike data) a t = some q) : q = 0 := by
  unfold wget zerosLike at h
  cases hl : lookupA a (data.assets.map
      (fun x => (x, (data.series x).close.map (fun _ => (0 : ℚ))))) with
  | none => rw [hl] at h; cases h
  | some s =>
    rw [hl] at h
    have hs := lookupA_map_val _ _ _ _ hl
    rw [Option.some_bind, hs, List.getElem?_map] at h
    cases hc : (data.series a).close[t]? with
    | none => rw [hc] at h; cases h
    | some c =>
      rw [hc] at h
      injection h with h
      exact h.symm

/-- Case analysis of one predictor iteration that returned normally: either
the weights are untouched, or the asset had a model, a nonempty valid range,
a successful prediction, and exactly its valid rows were written. -/
theorem predStep_cases (lg : ℚ → ℚ)
    (predictF : KModel → List (List ℚ) → Except PyErr (List ℚ))
    (models : List (ℕ × KModel)) (data : AssetData) (w : Weights) (x : ℕ)
    (w' : Weights) (h : predStep lg predictF models data w x = .ok w') :
    w' = w ∨ ∃ m preds, lookupA x models = some m ∧
      rowValidTimes lg (data.series x) ≠ [] ∧
      predictF m ((rowValidTimes lg (data.series x)).filterMap
        (featureRow lg (data.series x))) = .ok preds ∧
      w' = wwrite w x ((rowValidTimes lg (data.series x)).zip preds) := by
  simp only [predStep] at h
  split at h
  · injection h with h
    exact Or.inl h.symm
  · rename_i m hm
    split at h
    · injection h with h
      exact Or.inl h.symm
    · rename_i hts
      split at h
      · rename_i preds hp
        injection h with h
        exact Or.inr ⟨m, preds, hm, List.length_pos.mp (by omega), hp, h.symm⟩
      · rename_i e hp
        split at h
        · cases h
        · injection h with h
          exact Or.inl h.symm

/-! ### C4: flat positions where no model or no valid data exists -/

/-- C4: after a normal predictor run, the weight at every (time, asset) pair
whose asset has no trained model — or had zero valid feature rows — is the
initialized zero: the returned tensor is fully populated and flat there. -/
theorem c4_no_model_zero_weight (lg : ℚ → ℚ)
    (predictF : KModel → List (List ℚ) → Except PyErr (List ℚ))
    (models : List (ℕ × KModel)) (data : AssetData) (w : Weights) (a t : ℕ)
    (hw : predict_weights lg predictF models data = .ok w)
    (ha : a ∈ data.assets) (ht : t < (data.series a).close.length)
    (hnm : lookupA a models = none ∨ rowValidTimes lg (data.series a) = []) :
    wget w a t = some 0 := by
  refine foldlM_except_inv (fun b => wget b a t = some 0)
    (predStep lg predictF models data) (fun b x b' hP hs => ?_) data.assets
    (zerosLike data) w (wget_zerosLike data a t ha ht) hw
  rcases predStep_cases lg predictF models data b x b' hs with
    h1 | ⟨m, preds, hm, hne, hp, hw'⟩
  · rw [h1]; exact hP
  · rw [hw']
    unfold wget
    rw [lookupA_wwrite]
    by_cases hax : a = x
    · subst hax
      rcases hnm with hno | hempty
      · rw [hno] at hm; cases hm
      · exact absurd hempty hne
    · rw [if_neg hax]
      exact hP

/-- A one-asset universe with a single day of history: too short for any
feature row to be valid. -/
def dataTiny : AssetData := ⟨[0], fun _ => ⟨[some 2], [some 1], [some 1]⟩⟩

theorem c4_no_model_zero_weight_witness :
    wget [(0, [0])] 0 0 = some 0 :=
  c4_no_model_zero_weight id knnPredictF [] dataTiny [(0, [0])] 0 0
    (by with_unfolding_all decide) (by decide) (by decide)
    (Or.inl rfl)

/-! ### C7: no weight at a timestamp with a missing feature row -/

/-- C7: for an asset with a trained model, the predictor never writes a
weight at a timestamp whose feature row is missing — the entry keeps its
initial zero (and with zero valid rows nothing at all is written). -/
theorem c7_missing_row_not_written (lg : ℚ → ℚ)
    (predictF : KModel → List (List ℚ) → Except PyErr (List ℚ))
    (models : List (ℕ × KModel)) (data : AssetData) (w : Weights)
    (a t : ℕ) (m : KModel)
    (hw : predict_weights lg predictF models data = .ok w)
    (ha : a ∈ data.assets) (hm : lookupA a models = some m)
    (ht : t < (data.series a).close.length)
    (hrow : featureRow lg (data.series a) t = none) :
    wget w a t = some 0 := by
  have htnot : t ∉ rowValidTimes lg (data.series a) := by
    intro hmem
    have hsome := (List.mem_filter.mp hmem).2
    rw [hrow] at hsome
    cases hsome
  refine foldlM_except_inv (fun b => wget b a t = some 0)
    (predStep lg predictF models data) (fun b x b' hP hs => ?_) data.assets
    (zerosLike data) w (wget_zerosLike data a t ha ht) hw
  rcases predStep_cases lg predictF models data b x b' hs with
    h1 | ⟨m', preds, hm', hne, hp, hw'⟩
  · rw [h1]; exact hP
  · rw [hw']
    unfold wget
    rw [lookupA_wwrite]
    by_cases hax : a = x
    · subst hax
      rw [if_pos rfl]
      have hP2 : (lookupA a b).bind (fun s => s[t]?) = some 0 := hP
      cases hl : lookupA a b with
      | none => rw [hl] at hP2; cases hP2
      | some s =>
        rw [hl, Option.some_bind] at hP2
        show (setTimes s ((rowValidTimes lg (data.series a)).zip preds))[t]? = some 0
        rw [setTimes_getElem?_not_mem]
        · exact hP2
        · intro hmem
          rcases List.mem_map.mp hmem with ⟨pr, hpr, hfst⟩
          have hin := (List.of_mem_zip hpr).1
          rw [hfst] at hin
          exact htnot hin
    · rw [if_neg hax]
      exact hP

theorem c7_missing_row_not_written_witness :
    featureRow id (dataTiny.series 0) 0 = none ∧ wget [(0, [0])] 0 0 = some 0 :=
  ⟨by with_unfolding_all decide,
   c7_missing_row_not_written id knnPredictF [(0, ⟨[]⟩)] dataTiny [(0, [0])] 0 0 ⟨[]⟩
    (by with_unfolding_all decide) (by decide) (by decide) (by decide)
    (by with_unfolding_all decide)⟩

/-! ### C10: every written weight lies in the unit interval -/

/-- Every label value carried by the label series is 0 or 1. -/
theorem targ_val (d : PriceAsset) (t : ℕ) (v : ℚ)
    (h : (get_target_classes d)[t]? = some (some v)) : v = 0 ∨ v = 1 := by
  rw [get_target_classes, getElem?_zipWith] at h
  cases hf : (shiftm1 d.close)[t]? with
  | none => rw [hf] at h; cases h
  | some f =>
    cases hc : d.close[t]? with
    | none => rw [hf, hc] at h; simp at h
    | some c =>
      rw [hf, hc] at h
      simp only [Option.some_bind, Option.map_some', Option.some.injEq] at h
      cases hog : ogt f c
      · rw [hog] at h
        simp at h
        exact Or.inl h.symm
      · rw [hog] at h
        simp at h
        exact Or.inr h.symm

/-- Every training label handed to `model.fit` is 0 or 1. -/
theorem trainingPairs_label (lg : ℚ → ℚ) (d : PriceAsset) (x : List ℚ) (y : ℚ)
    (h : (x, y) ∈ trainingPairs lg d) : y = 0 ∨ y = 1 := by
  rcases List.mem_filterMap.mp h with ⟨t, ht, hmatch⟩
  cases hr : featureRow lg d t with
  | none => rw [hr] at hmatch; cases hmatch
  | some row =>
    cases hv : (get_target_classes d)[t]?.join with
    | none => rw [hr, hv] at hmatch; cases hmatch
    | some v =>
      rw [hr, hv] at hmatch
      injection hmatch with hmatch
      have hy : v = y := congrArg Prod.snd hmatch
      have hg : (get_target_classes d)[t]? = some (some v) := by
        cases hg2 : (get_target_classes d)[t]? with
        | none => rw [hg2] at hv; cases hv
        | some o =>
          rw [hg2] at hv
          cases o with
          | none => cases hv
          | some vv =>
            have hvv : some vv = some v := hv
            injection hvv with hvv
            rw [hvv]
      rw [← hy]
      exact targ_val d t v hg

/-- Every model `train_model` stores under the real `KNeighborsRegressor.fit`
holds exactly the asset's aligned training pairs. -/
theorem train_model_knn_pairs (lg : ℚ → ℚ) (data : AssetData) :
    ∀ p ∈ train_model lg knnFit data,
      p.2.pairs = trainingPairs lg (data.series p.1) := by
  unfold train_model
  suffices hgen : ∀ (l : List ℕ) (acc : List (ℕ × KModel)),
      (∀ p ∈ acc, p.2.pairs = trainingPairs lg (data.series p.1)) →
      ∀ p ∈ l.foldl (trainStep lg knnFit data) acc,
        p.2.pairs = trainingPairs lg (data.series p.1) by
    exact hgen data.assets [] (fun p hp => absurd hp (List.not_mem_nil p))
  intro l
  induction l with
  | nil => intro acc hacc; exact hacc
  | cons x xs ih =>
    intro acc hacc
    rw [List.foldl_cons]
    apply ih
    intro p hp
    unfold trainStep at hp
    by_cases hc : (rowValidTimes lg (data.series x)).length < 10
    · rw [if_pos hc] at hp
      exact hacc p hp
    · rw [if_neg hc] at hp
      simp only [knnFit] at hp
      rcases List.mem_append.mp hp with h1 | h2
      · exact hacc p h1
      · rw [List.mem_singleton.mp h2]

/-- A 5-nearest-neighbours prediction over training labels in {0, 1} lies in
the closed unit interval. -/
theorem knnPredict_bound (m : KModel) (x : List ℚ)
    (hlab : ∀ p ∈ m.pairs, p.2 = 0 ∨ p.2 = 1) :
    0 ≤ knnPredict 5 m x ∧ knnPredict 5 m x ≤ 1 := by
  unfold knnPredict
  set chosen := (m.pairs.insertionSort (fun p q => sqDist p.1 x ≤ sqDist q.1 x)).take 5
    with hch
  have hmem : ∀ q ∈ chosen.map Prod.snd, 0 ≤ q ∧ q ≤ 1 := by
    intro q hq
    rcases List.mem_map.mp hq with ⟨p, hp, hpq⟩
    have h1 : p ∈ m.pairs.insertionSort (fun p q => sqDist p.1 x ≤ sqDist q.1 x) :=
      List.mem_of_mem_take hp
    have h2 : p ∈ m.pairs := (List.perm_insertionSort _ _).mem_iff.mp h1
    rcases hlab p h2 with h0 | h1'
    · rw [← hpq, h0]; norm_num
    · rw [← hpq, h1']; norm_num
  rcases Nat.eq_zero_or_pos chosen.length with h0 | hpos
  · have hnil : chosen = [] := List.length_eq_zero.mp h0
    rw [hnil]
    norm_num
  · have hlen : (0 : ℚ) < (chosen.length : ℕ) := by exact_mod_cast hpos
    constructor
    · exact div_nonneg (List.sum_nonneg (fun q hq => (hmem q hq).1)) (le_of_lt hlen)
    · rw [div_le_one hlen]
      have hs := List.sum_le_card_nsmul (chosen.map Prod.snd) 1 (fun q hq => (hmem q hq).2)
      rw [List.length_map] at hs
      simpa [nsmul_eq_mul] using hs

/-- C10: with the real 5-nearest-neighbours model — whose prediction is the
mean of five training labels, each 0 or 1 — every entry of the weights
tensor returned by `predict_weights` lies in [0, 1]: the strategy never
takes a short position. -/
theorem c10_weights_in_unit_interval (lg : ℚ → ℚ) (data : AssetData) (w : Weights)
    (hw : predict_weights lg knnPredictF (train_model lg knnFit data) data = .ok w)
    (a t : ℕ) (q : ℚ) (hq : wget w a t = some q) :
    0 ≤ q ∧ q ≤ 1 := by
  refine foldlM_except_inv
    (fun b => ∀ a2 t2 q2, wget b a2 t2 = some q2 → 0 ≤ q2 ∧ q2 ≤ 1)
    (predStep lg knnPredictF (train_model lg knnFit data) data)
    (fun b x b' hP hs => ?_) data.assets (zerosLike data) w
    (fun a2 t2 q2 hq2 => by rw [wget_zerosLike_val data a2 t2 q2 hq2]; norm_num)
    hw a t q hq
  intro a2 t2 q2 hq2
  rcases predStep_cases lg knnPredictF (train_model lg knnFit data) data b x b' hs with
    h1 | ⟨m, preds, hm, hne, hp, hw'⟩
  · rw [h1] at hq2
    exact hP a2 t2 q2 hq2
  · rw [hw'] at hq2
    unfold wget at hq2
    rw [lookupA_wwrite] at hq2
    by_cases hax : a2 = x
    · rw [if_pos hax] at hq2
      cases hl : lookupA a2 b with
      | none => rw [hl] at hq2; cases hq2
      | some s =>
        rw [hl, Option.map_some', Option.some_bind] at hq2
        rcases setTimes_getElem?_cases s _ t2 q2 hq2 with hold | hnew
        · exact hP a2 t2 q2 (by unfold wget; rw [hl, Option.some_bind]; exact hold)
        · rcases List.mem_map.mp hnew with ⟨pr, hpr, hsnd⟩
          have hq2preds : q2 ∈ preds := by
            rw [← hsnd]
            exact (List.of_mem_zip hpr).2
          have hpreds : preds = ((rowValidTimes lg (data.series x)).filterMap
              (featureRow lg (data.series x))).map (knnPredict 5 m) := by
            have hinj := hp
            unfold knnPredictF at hinj
            injection hinj with hinj
            exact hinj.symm
          rw [hpreds] at hq2preds
          rcases List.mem_map.mp hq2preds with ⟨row, hrowmem, hqrow⟩
          have hmm : (x, m) ∈ train_model lg knnFit data := lookupA_mem x _ m hm
          have hpairs : m.pairs = trainingPairs lg (data.series x) :=
            train_model_knn_pairs lg data (x, m) hmm
          have hlab : ∀ p ∈ m.pairs, p.2 = 0 ∨ p.2 = 1 := by
            intro p hp2
            rw [hpairs] at hp2
            exact trainingPairs_label lg (data.series x) p.1 p.2 (by simpa using hp2)
          rw [← hqrow]
          exact knnPredict_bound m row hlab
    · rw [if_neg hax] at hq2
      exact hP a2 t2 q2 hq2

theorem c10_weights_in_unit_interval_witness :
    predict_weights id knnPredictF (train_model id knnFit dataTiny) dataTiny
      = .ok [(0, [0])] ∧ ((0 : ℚ) ≤ 0 ∧ (0 : ℚ) ≤ 1) :=
  ⟨by with_unfolding_all decide,
   c10_weights_in_unit_interval id dataTiny [(0, [0])] (by with_unfolding_all decide) 0 0 0
     (by with_unfolding_all decide)⟩
